import Mathlib

/-!
Shallow embedding of the Choir privacy-preserving telemetry library
(github.com/Jigsaw-Code/choir) in Lean 4, together with proofs of the
behavioral properties stated in its specification.

Go strings are byte sequences; we model them as lists of natural numbers
below 256 (`GoStr`).  Go's `time.Time` values used by the library are
always UTC midnights formatted as YYYYMMDD, so they are modelled as
(year, month, day) triples.  Go maps used as sets are modelled as
duplicate-free lists.  `int` counters are modelled as `Int` (no claim
below depends on 64-bit wraparound).
-/

deriving instance DecidableEq for Except

namespace Choir

/-- A Go string, as a list of byte values. -/
abbrev GoStr := List Nat

/-! ### Go standard-library string operations (package strings), on byte lists -/

/-- The ASCII fast path of `strings.ToLower`, applied byte-wise when
the whole string is ASCII: 'A'..'Z' map to 'a'..'z', every other byte
below 0x80 is fixed. -/
def goToLowerByte (b : Nat) : Nat :=
  if 65 ≤ b ∧ b ≤ 90 then b + 32 else b

/-- `unicode.ReplacementChar` (U+FFFD), produced when decoding invalid
UTF-8. -/
def runeError : Nat := 65533

/-- `utf8.DecodeRune` on the head of a byte string: the first rune and
the number of bytes it consumes.  Exactly Go's acceptance ranges:
ASCII; 2-byte leads 0xC2..0xDF; 3-byte leads 0xE0..0xEF with the
0xE0/0xED continuation restrictions (no overlongs, no surrogates);
4-byte leads 0xF0..0xF4 with the 0xF0/0xF4 restrictions (no overlongs,
nothing above U+10FFFF).  Every invalid head yields (U+FFFD, 1). -/
def utf8DecodeFirst (s : GoStr) : Nat × Nat :=
  match s with
  | [] => (runeError, 0)
  | b0 :: rest =>
    if b0 < 128 then (b0, 1)
    else if 194 ≤ b0 ∧ b0 ≤ 223 then
      match rest with
      | b1 :: _ =>
        if 128 ≤ b1 ∧ b1 ≤ 191 then ((b0 - 192) * 64 + (b1 - 128), 2)
        else (runeError, 1)
      | _ => (runeError, 1)
    else if 224 ≤ b0 ∧ b0 ≤ 239 then
      match rest with
      | b1 :: b2 :: _ =>
        if (if b0 = 224 then 160 else 128) ≤ b1 ∧
           b1 ≤ (if b0 = 237 then 159 else 191) ∧
           128 ≤ b2 ∧ b2 ≤ 191 then
          ((b0 - 224) * 4096 + (b1 - 128) * 64 + (b2 - 128), 3)
        else (runeError, 1)
      | _ => (runeError, 1)
    else if 240 ≤ b0 ∧ b0 ≤ 244 then
      match rest with
      | b1 :: b2 :: b3 :: _ =>
        if (if b0 = 240 then 144 else 128) ≤ b1 ∧
           b1 ≤ (if b0 = 244 then 143 else 191) ∧
           128 ≤ b2 ∧ b2 ≤ 191 ∧ 128 ≤ b3 ∧ b3 ≤ 191 then
          ((b0 - 240) * 262144 + (b1 - 128) * 4096 + (b2 - 128) * 64 +
            (b3 - 128), 4)
        else (runeError, 1)
      | _ => (runeError, 1)
    else (runeError, 1)

/-- The decoding loop, structurally recursive on a step budget: every
step consumes at least one byte, so a budget of the byte length decodes
the whole string. -/
def utf8DecodeAux : Nat → GoStr → List Nat
  | 0, _ => []
  | _, [] => []
  | fuel + 1, b0 :: rest =>
    (utf8DecodeFirst (b0 :: rest)).1 ::
      utf8DecodeAux fuel
        ((b0 :: rest).drop (max (utf8DecodeFirst (b0 :: rest)).2 1))

/-- The rune sequence of a byte string, decoding as Go's range loop
does (each invalid byte becomes U+FFFD). -/
def utf8Decode (s : GoStr) : List Nat :=
  utf8DecodeAux s.length s

/-- `utf8.AppendRune`: UTF-8 bytes of a rune; surrogates and values
above U+10FFFF encode as U+FFFD. -/
def utf8EncodeRune (r : Nat) : GoStr :=
  if r < 128 then [r]
  else if r < 2048 then [192 + r / 64, 128 + r % 64]
  else if (55296 ≤ r ∧ r ≤ 57343) ∨ 1114111 < r then [239, 191, 189]
  else if r < 65536 then [224 + r / 4096, 128 + r / 64 % 64, 128 + r % 64]
  else [240 + r / 262144, 128 + r / 4096 % 64, 128 + r / 64 % 64,
    128 + r % 64]

/-- `unicode.ToLower` on a rune, modelled exactly for every code point
below 0x100 ('A'..'Z' and the Latin-1 capitals À..Þ except × map down
by 32, everything else below 0x100 is uncased or already lower-case)
and for U+FFFD (uncased).  The Unicode case mappings of higher code
points are outside this model and left fixed: no statement below
applies this function to such a code point — every theorem about the
case check either restricts to ASCII strings (which take the byte-wise
fast path of `goToLower`) or evaluates a concrete string whose only
rune is U+FFFD. -/
def toLowerRune (r : Nat) : Nat :=
  if 65 ≤ r ∧ r ≤ 90 then r + 32
  else if 192 ≤ r ∧ r ≤ 222 ∧ r ≠ 215 then r + 32
  else r

/-- The non-ASCII path of `strings.ToLower`: `strings.Map` of
`unicode.ToLower`, i.e. decode, case-map each rune, re-encode.  (Go
copies unchanged valid runes verbatim instead of re-encoding them,
which produces the same bytes; an invalid byte is always treated as
changed and re-encodes as U+FFFD.) -/
def goToLowerUnicode (s : GoStr) : GoStr :=
  ((utf8Decode s).map (fun r => utf8EncodeRune (toLowerRune r))).flatten

/-- `strings.ToLower` on a byte string: all-ASCII strings are
lower-cased byte-wise (Go's fast path), anything else goes through the
UTF-8 rune mapping, which also replaces invalid bytes with U+FFFD. -/
def goToLower (s : GoStr) : GoStr :=
  if s.all (fun b => b < 128) then s.map goToLowerByte
  else goToLowerUnicode s

/-- `strings.TrimSuffix(s, suf)`: removes one trailing occurrence of `suf`. -/
def trimSuffix (s suf : GoStr) : GoStr :=
  if suf.isSuffixOf s then s.take (s.length - suf.length) else s

/-- `strings.Join(labels, sep)` with a one-byte separator. -/
def joinOn (sep : Nat) (labels : List GoStr) : GoStr :=
  [sep].intercalate labels

/-- The '.' byte. -/
def dotByte : Nat := 46

/-! ### Data model (key.go) -/

/-- A calendar day (always UTC midnight in the library).  The library
formats dates as YYYYMMDD, so years are four decimal digits. -/
structure Date where
  year : Nat
  month : Nat
  day : Nat
deriving DecidableEq, Repr

/-- Key is the quasi-identifying information associated with a report. -/
structure Key where
  Domain : GoStr
  Country : GoStr
  Date : Date
deriving DecidableEq, Repr

/-- Value represents a string validated for inclusion in a Report. -/
structure Value where
  v : GoStr
deriving DecidableEq, Repr

/-- The four distinct rejection kinds of `NewValue`, each carrying the
offending input. -/
inductive ValueError where
  | containsDot (s : GoStr)
  | notLowerCase (s : GoStr)
  | tooLong (s : GoStr)
  | nonAscii (s : GoStr)
deriving DecidableEq, Repr

/-- `NewValue` converts a string to a Value or rejects it, with the
checks in the source order: '.', upper-case, length over 63, non-ASCII. -/
def NewValue (s : GoStr) : Except ValueError Value :=
  if dotByte ∈ s then .error (.containsDot s)
  else if goToLower s ≠ s then .error (.notLowerCase s)
  else if s.length > 63 then .error (.tooLong s)
  else if s.any (fun b => 128 ≤ b) then .error (.nonAscii s)
  else .ok ⟨s⟩

/-- Report represents a full report to the server.  The Go struct embeds
`Key`; we keep it as a named field. -/
structure Report where
  Key : Key
  Values : List Value
  bin : GoStr
deriving DecidableEq, Repr

/-- Domains are always handled in lower case, without the trailing ".". -/
def normalizeForReport (domain : GoStr) : GoStr :=
  goToLower (trimSuffix domain [dotByte])

/-! ### Date formatting (const dateForm = "20060102") -/

/-- ASCII digit byte of `n % 10`. -/
def digitByte (n : Nat) : Nat := 48 + n % 10

/-- Two-digit zero-padded decimal. -/
def pad2 (n : Nat) : GoStr := [digitByte (n / 10), digitByte n]

/-- Four-digit zero-padded decimal. -/
def pad4 (n : Nat) : GoStr :=
  [digitByte (n / 1000), digitByte (n / 100), digitByte (n / 10), digitByte n]

/-- `Date.Format("20060102")`. -/
def goDateFormat (d : Date) : GoStr := pad4 d.year ++ pad2 d.month ++ pad2 d.day

/-- Leap year rule used by Go's time package (proleptic Gregorian). -/
def isLeap (y : Nat) : Bool := (y % 4 = 0 ∧ y % 100 ≠ 0) ∨ y % 400 = 0

/-- Number of days in a month. -/
def daysIn (y m : Nat) : Nat :=
  if m = 2 then (if isLeap y then 29 else 28)
  else if m = 4 ∨ m = 6 ∨ m = 9 ∨ m = 11 then 30
  else 31

def isDigit (b : Nat) : Bool := 48 ≤ b ∧ b ≤ 57

/-- `time.Parse("20060102", s)`: eight ASCII digits forming a valid
calendar date. -/
def goDateParse (s : GoStr) : Option Date :=
  match s with
  | [y1, y2, y3, y4, m1, m2, d1, d2] =>
    if isDigit y1 ∧ isDigit y2 ∧ isDigit y3 ∧ isDigit y4 ∧
       isDigit m1 ∧ isDigit m2 ∧ isDigit d1 ∧ isDigit d2 then
      let y := (y1 - 48) * 1000 + (y2 - 48) * 100 + (y3 - 48) * 10 + (y4 - 48)
      let m := (m1 - 48) * 10 + (m2 - 48)
      let d := (d1 - 48) * 10 + (d2 - 48)
      if 1 ≤ m ∧ m ≤ 12 ∧ 1 ≤ d ∧ d ≤ daysIn y m then some ⟨y, m, d⟩ else none
    else none
  | _ => none

/-- `a.Before(b)` on two UTC midnights: lexicographic day order. -/
def dateLt (a b : Date) : Bool :=
  a.year < b.year ∨ (a.year = b.year ∧
    (a.month < b.month ∨ (a.month = b.month ∧ a.day < b.day)))

/-! ### Client-side name encoding (client.go, func name) -/

/-- Encapsulates the domain and values, along with other information
needed for correct anonymous reconstruction:
value_0 . … . value_{k-1} . bin . country . date . domain . suffix -/
def name (report : Report) (suffix : GoStr) : GoStr :=
  joinOn dotByte (report.Values.map (fun v => v.v) ++
    [report.bin, report.Key.Country, goDateFormat report.Key.Date,
     report.Key.Domain, suffix])

/-! ### Server-side parsing (server.go, Receiver.ParseReport) -/

/-- The distinct parse failures of `Receiver.ParseReport`. -/
inductive ParseError where
  | nonAscii
  | missingSuffix
  | tooShort
  | badValue (e : ValueError)
  | badDate
deriving DecidableEq, Repr

/-- Receiver represents the configuration of a metrics server.
`Values` is a Go int; the claims only concern non-negative counts. -/
structure Receiver where
  Suffix : GoStr
  Values : Nat
deriving Repr

/-- The label phase of `ParseReport`, after suffix stripping and the
split on '.': the length guard, the per-value validation in order, the
positional reads of bin, country and date, and the date parse.  The Go
code reads bin, country and date by sequential slicing; after the
length guard the list has at least four labels past the values, which
the match below consumes. -/
def parseLabels (rv : Nat) (labels : List GoStr) : Except ParseError Report :=
  if labels.length ≤ rv + 3 then .error .tooShort
  else
    match (labels.take rv).mapM NewValue, labels.drop rv with
    | .error e, _ => .error (.badValue e)
    | .ok values, bin :: country :: dateLabel :: domainLabels =>
      match goDateParse dateLabel with
      | some date =>
        .ok ⟨⟨joinOn dotByte domainLabels, country, date⟩, values, bin⟩
      | none => .error .badDate
    | .ok _, _ => .error .tooShort

/-- ParseReport inverts `name`.  The checks appear in source order:
non-ASCII bytes, normalization of the name and the configured suffix,
the suffix match, suffix stripping, and the label phase. -/
def Receiver.ParseReport (r : Receiver) (nm : GoStr) : Except ParseError Report :=
  if nm.any (fun b => 128 ≤ b) then .error .nonAscii
  else
    let n := normalizeForReport nm
    let suffix := normalizeForReport r.Suffix
    if ¬ suffix.isSuffixOf n then .error .missingSuffix
    else parseLabels r.Values
      ((trimSuffix (trimSuffix n suffix) [dotByte]).splitOn dotByte)

/-! ### Once-a-day cache (client.go, cache.Add) -/

/-- Maximum number of reports per day. -/
def maxReports : Nat := 1000

inductive CacheError where
  | oldDate
  | cacheFull
deriving DecidableEq, Repr

/-- Cache of domains that have already been reported today.  The Go
map-used-as-set is modelled as a duplicate-free list. -/
structure Cache where
  date : Date
  cache : List GoStr
deriving DecidableEq, Repr

/-- The body of `cache.Add` after the date handling: duplicate check,
capacity check, insert. -/
def cacheAddBody (c : Cache) (key : Key) : Cache × Bool × Option CacheError :=
  if key.Domain ∈ c.cache then (c, false, none)
  else if maxReports ≤ c.cache.length then (c, false, some .cacheFull)
  else ({ c with cache := c.cache ++ [key.Domain] }, true, none)

/-- `cache.Add(key)`: reject strictly older dates, flush on strictly
newer dates, then run the body.  (The Go code tests `!Equal` first and
`Before` inside; the branches below are the same three cases.) -/
def cacheAdd (c : Cache) (key : Key) : Cache × Bool × Option CacheError :=
  if key.Date = c.date then cacheAddBody c key
  else if dateLt key.Date c.date then (c, false, some .oldDate)
  else cacheAddBody ⟨key.Date, []⟩ key

/-! ### Burst suppressor (client.go, burstReportSender.Send)

`Send` increments the count, draws a random index from the crypto RNG,
and on a zero draw replaces the pending report (reservoir sampling).
The draw is an input of the model: `Except Unit Int` is the outcome of
`rand.Int(rand.Reader, count)`.  The `time.AfterFunc` drain scheduling
is real-time behavior and is not part of the returned value. -/

structure BurstState where
  count : Int
  pending : Report
deriving Repr

/-- One call of `burstReportSender.Send`: returns the updated state and
the error result of the call. -/
def burstSend (st : BurstState) (r : Report) (draw : Except Unit Int) :
    BurstState × Except Unit Unit :=
  let count := st.count + 1
  match draw with
  | .error e => ({ st with count := count }, .error e)
  | .ok i =>
    if i = 0 then (⟨count, r⟩, .ok ())
    else ({ st with count := count }, .ok ())

/-! ### Server-side k-anonymity filter (server.go, dam and Filter) -/

/-- Per-key server-side state: a set of observed bins (duplicate-free
list) and the buffered value sequences. -/
structure Dam where
  bins : List GoStr
  observations : List (List Value)
deriving Repr

/-- Insertion into the Go set `map[string]observed`. -/
def insertBin (b : GoStr) (l : List GoStr) : List GoStr :=
  if b ∈ l then l else l ++ [b]

/-- `dam.add(report, threshold)`.  A `none` dam is the burst sentinel
and returns the report immediately, before the missing-bin check.  The
`.error` result is the `panic("Report is missing bin")`.  The first
component of a successful result is the released slice (`none` for the
Go `nil`), the second the updated dam. -/
def damAdd (d : Option Dam) (report : Report) (threshold : Int) :
    Except Unit (Option (List Report) × Option Dam) :=
  match d with
  | none => .ok (some [report], none)
  | some d =>
    if report.bin = [] then .error ()
    else
      let bins := insertBin report.bin d.bins
      let observations := d.observations ++ [report.Values]
      if threshold ≤ (bins.length : Int) then
        .ok (some (observations.map (fun v => ⟨report.Key, v, []⟩)), some ⟨bins, []⟩)
      else .ok (none, some ⟨bins, observations⟩)

/-- The `pending` map of `Filter`: `none` is an absent key, `some none`
a key whose dam has been replaced by the nil sentinel (burst), and
`some (some d)` an active dam. -/
def Pending := Key → Option (Option Dam)

/-- One iteration of `Filter`'s loop body for one report: look up or
create the dam, add the report, and on a release replace a non-nil dam
with the nil sentinel. -/
def filterStep (pending : Pending) (report : Report) (threshold : Int) :
    Except Unit (Pending × List Report) :=
  let d : Option Dam :=
    match pending report.Key with
    | none => some ⟨[], []⟩
    | some d => d
  match damAdd d report threshold with
  | .error e => .error e
  | .ok (some released, _) =>
    let pending' : Pending :=
      match d with
      | some _ => fun k => if k = report.Key then some none else pending k
      | none => pending
    .ok (pending', released)
  | .ok (none, d') =>
    .ok (fun k => if k = report.Key then some d' else pending k, [])

/-- `Filter`'s loop over the remaining input, collecting the output
stream in order.  An `.error` is a panic inside `dam.add`. -/
def filterGo (pending : Pending) (rs : List Report) (threshold : Int) :
    Except Unit (List Report) :=
  match rs with
  | [] => .ok []
  | r :: rest =>
    match filterStep pending r threshold with
    | .error e => .error e
    | .ok (p', out) => (filterGo p' rest threshold).map (fun tail => out ++ tail)

/-- `Filter(in, threshold)` on a finite input stream, starting from the
empty pending map. -/
def Filter (rs : List Report) (threshold : Int) : Except Unit (List Report) :=
  filterGo (fun _ => none) rs threshold

/-! ### SHA-256 and HMAC (crypto/sha256, crypto/hmac)

The bin assigner calls `hmac.New(sha256.New, salt)`.  These Go standard
library primitives are embedded concretely (FIPS 180-4): 32-bit words
are naturals reduced modulo 2^32. -/

/-- Reduction modulo 2^32. -/
def w32 (n : Nat) : Nat := n % 4294967296

/-- 32-bit right rotation. -/
def rotr (x n : Nat) : Nat := w32 (x >>> n ||| x <<< (32 - n))

def sigmaA (x : Nat) : Nat := rotr x 2 ^^^ (rotr x 13 ^^^ rotr x 22)

def sigmaB (x : Nat) : Nat := rotr x 6 ^^^ (rotr x 11 ^^^ rotr x 25)

def sigmaC (x : Nat) : Nat := rotr x 7 ^^^ (rotr x 18 ^^^ (x >>> 3))

def sigmaD (x : Nat) : Nat := rotr x 17 ^^^ (rotr x 19 ^^^ (x >>> 10))

def chFn (x y z : Nat) : Nat := (x &&& y) ^^^ ((x ^^^ 4294967295) &&& z)

def majFn (x y z : Nat) : Nat := (x &&& y) ^^^ (x &&& z) ^^^ (y &&& z)

/-- The 64 SHA-256 round constants of FIPS 180-4, in decimal. -/
def K256 : List Nat :=
  [1116352408, 1899447441, 3049323471, 3921009573, 961987163,
   1508970993, 2453635748, 2870763221, 3624381080, 310598401,
   607225278, 1426881987, 1925078388, 2162078206, 2614888103,
   3248222580, 3835390401, 4022224774, 264347078, 604807628,
   770255983, 1249150122, 1555081692, 1996064986, 2554220882,
   2821834349, 2952996808, 3210313671, 3336571891, 3584528711,
   113926993, 338241895, 666307205, 773529912, 1294757372,
   1396182291, 1695183700, 1986661051, 2177026350, 2456956037,
   2730485921, 2820302411, 3259730800, 3345764771, 3516065817,
   3600352804, 4094571909, 275423344, 430227734, 506948616,
   659060556, 883997877, 958139571, 1322822218, 1537002063,
   1747873779, 1955562222, 2024104815, 2227730452, 2361852424,
   2428436474, 2756734187, 3204031479, 3329325298]

/-- The eight 32-bit words of a SHA-256 state. -/
structure Hash8 where
  a : Nat
  b : Nat
  c : Nat
  d : Nat
  e : Nat
  f : Nat
  g : Nat
  h : Nat
deriving Repr

/-- One SHA-256 round for a (constant, schedule word) pair. -/
def sha256Round (st : Hash8) (kw : Nat × Nat) : Hash8 :=
  let t1 := w32 (st.h + sigmaB st.e + chFn st.e st.f st.g + kw.1 + kw.2)
  let t2 := w32 (sigmaA st.a + majFn st.a st.b st.c)
  ⟨w32 (t1 + t2), st.a, st.b, st.c, w32 (st.d + t1), st.e, st.f, st.g⟩

/-- Big-endian 32-bit words from a byte list. -/
def toWordsBE : List Nat → List Nat
  | b0 :: b1 :: b2 :: b3 :: rest =>
    (b0 * 16777216 + b1 * 65536 + b2 * 256 + b3) :: toWordsBE rest
  | _ => []

/-- Extend the 16 message words to the 64-entry schedule, one word per
step. -/
def wextend : Nat → List Nat → List Nat
  | 0, ws => ws
  | n + 1, ws =>
    let L := ws.length
    wextend n (ws ++ [w32 (sigmaD (ws.getD (L - 2) 0) + ws.getD (L - 7) 0 +
      sigmaC (ws.getD (L - 15) 0) + ws.getD (L - 16) 0)])

/-- SHA-256 compression of one 64-byte chunk. -/
def sha256Compress (st : Hash8) (chunk : List Nat) : Hash8 :=
  let w := wextend 48 (toWordsBE chunk)
  let t := (K256.zip w).foldl sha256Round st
  ⟨w32 (st.a + t.a), w32 (st.b + t.b), w32 (st.c + t.c), w32 (st.d + t.d),
   w32 (st.e + t.e), w32 (st.f + t.f), w32 (st.g + t.g), w32 (st.h + t.h)⟩

/-- Big-endian 64-bit byte encoding. -/
def be64 (n : Nat) : List Nat :=
  [n / 72057594037927936 % 256, n / 281474976710656 % 256,
   n / 1099511627776 % 256, n / 4294967296 % 256,
   n / 16777216 % 256, n / 65536 % 256, n / 256 % 256, n % 256]

/-- SHA-256 message padding: 0x80, zeros to 56 mod 64, bit length. -/
def sha256Pad (msg : List Nat) : List Nat :=
  msg ++ [128] ++ List.replicate ((119 - msg.length % 64) % 64) 0 ++
    be64 (8 * msg.length)

/-- 64-byte chunks of a padded message. -/
def sha256Chunks (l : List Nat) : List (List Nat) :=
  if h : l = [] then [] else l.take 64 :: sha256Chunks (l.drop 64)
termination_by l.length
decreasing_by
  simp only [List.length_drop]
  have : 0 < l.length := List.length_pos.mpr h
  omega

/-- Big-endian bytes of one 32-bit word. -/
def wordToBytesBE (w : Nat) : List Nat :=
  [w / 16777216 % 256, w / 65536 % 256, w / 256 % 256, w % 256]

/-- The SHA-256 digest (32 bytes) of a byte message. -/
def sha256 (msg : List Nat) : List Nat :=
  let st := (sha256Chunks (sha256Pad msg)).foldl sha256Compress
    ⟨1779033703, 3144134277, 1013904242, 2773480762,
     1359893119, 2600822924, 528734635, 1541459225⟩
  ([st.a, st.b, st.c, st.d, st.e, st.f, st.g, st.h].map wordToBytesBE).flatten

/-- HMAC-SHA-256 with block size 64. -/
def hmacSha256 (key msg : List Nat) : List Nat :=
  let k0 := if 64 < key.length then sha256 key else key
  let kpad := k0 ++ List.replicate (64 - k0.length) 0
  sha256 ((kpad.map (fun b => b ^^^ 92)) ++
    sha256 ((kpad.map (fun b => b ^^^ 54)) ++ msg))

/-! ### Hash binner (client.go, hashBinner) -/

/-- Number of bytes of local salt for bin assignments. -/
def saltsize : Nat := 16

/-- hashBinner implements binner using a hash function with a secret
local salt.  `bins` is a Go int; `newHashBinner` rejects values below
one, and the claims quantify over `1 ≤ bins`. -/
structure hashBinner where
  salt : List Nat
  bins : Nat
deriving Repr

/-- The base-32 alphabet "abcdefghijklmnopqrstuvwxyz234567". -/
def base32alphabet : GoStr :=
  [97, 98, 99, 100, 101, 102, 103, 104, 105, 106, 107, 108, 109,
   110, 111, 112, 113, 114, 115, 116, 117, 118, 119, 120, 121, 122,
   50, 51, 52, 53, 54, 55]

/-- The loop of `base32size`: number of 5-bit shifts to reach zero. -/
def base32sizeLoop (v : Nat) : Nat :=
  if h : v = 0 then 0 else base32sizeLoop (v >>> 5) + 1
termination_by v
decreasing_by
  simp only [Nat.shiftRight_eq_div_pow]
  exact Nat.div_lt_self (Nat.pos_of_ne_zero h) (by norm_num)

/-- Count the number of characters required to represent val in base32.
Representing zero requires one character, not zero. -/
def base32size (val : Nat) : Nat :=
  if val = 0 then 1 else base32sizeLoop val

/-- `binary.LittleEndian.Uint64` of the leading digest bytes. -/
def leUint64 (code : List Nat) : Nat :=
  code.getD 0 0 + code.getD 1 0 * 256 + code.getD 2 0 * 65536 +
  code.getD 3 0 * 16777216 + code.getD 4 0 * 4294967296 +
  code.getD 5 0 * 1099511627776 + code.getD 6 0 * 281474976710656 +
  code.getD 7 0 * 72057594037927936

/-- The encoding loop of `hashBinner.bin`: fills a `size`-byte buffer
from its last position with the low five bits, shifting by five between
positions (big-endian digit order). -/
def base32encode (bin : Nat) : Nat → GoStr
  | 0 => []
  | n + 1 => base32encode (bin >>> 5) n ++ [base32alphabet.getD (bin &&& 31) 0]

/-- `hashBinner.bin(k)`: HMAC the joined components with the salt,
reduce the little-endian head modulo `bins`, and base-32 encode at the
fixed width `base32size(bins - 1)`. -/
def hashBinner.bin (b : hashBinner) (k : Key) : GoStr :=
  let msg := joinOn 59 [k.Domain, k.Country, goDateFormat k.Date]
  let code := hmacSha256 b.salt msg
  let binVal := leUint64 code % b.bins
  let maxBin := b.bins - 1
  base32encode binVal (base32size maxBin)

/-! ### Data-model invariants (spec section 3) -/

/-- A byte of lower-case ASCII text: below 128 and fixed by case
mapping (not an upper-case letter). -/
def LowerAsciiByte (b : Nat) : Prop := b < 128 ∧ goToLowerByte b = b

/-- A valid `Value`: `NewValue` accepts its contents and returns it. -/
def ValueWF (v : Value) : Prop := NewValue v.v = .ok v

/-- A two-character lower-case country code. -/
def CountryWF (c : GoStr) : Prop := c.length = 2 ∧ ∀ b ∈ c, 97 ≤ b ∧ b ≤ 122

/-- A calendar day representable in the YYYYMMDD date form. -/
def DateWF (d : Date) : Prop :=
  1 ≤ d.year ∧ d.year ≤ 9999 ∧ 1 ≤ d.month ∧ d.month ≤ 12 ∧
  1 ≤ d.day ∧ d.day ≤ daysIn d.year d.month

/-- A non-empty lower-case base-32 bin label. -/
def BinWF (bin : GoStr) : Prop := bin ≠ [] ∧ ∀ b ∈ bin, b ∈ base32alphabet

/-- A domain as the builder emits it: non-empty lower-case ASCII with
no trailing dot. -/
def DomainWF (s : GoStr) : Prop :=
  s ≠ [] ∧ (∀ b ∈ s, LowerAsciiByte b) ∧ ¬ [dotByte].isSuffixOf s

/-- The data-model invariants of a `Report` leaving the builder. -/
def ReportWF (r : Report) : Prop :=
  DomainWF r.Key.Domain ∧ CountryWF r.Key.Country ∧ DateWF r.Key.Date ∧
  (∀ v ∈ r.Values, ValueWF v) ∧ BinWF r.bin

/-- The set of distinct bin strings accompanying a key in a stream. -/
def binFinset (rs : List Report) (k : Key) : Finset GoStr :=
  ((rs.filter (fun r => r.Key == k)).map (fun r => r.bin)).toFinset

instance (b : Nat) : Decidable (LowerAsciiByte b) := by
  unfold LowerAsciiByte; infer_instance

instance (v : Value) : Decidable (ValueWF v) := by
  unfold ValueWF; infer_instance

instance (c : GoStr) : Decidable (CountryWF c) := by
  unfold CountryWF; infer_instance

instance (d : Date) : Decidable (DateWF d) := by
  unfold DateWF; infer_instance

instance (bin : GoStr) : Decidable (BinWF bin) := by
  unfold BinWF; infer_instance

instance (s : GoStr) : Decidable (DomainWF s) := by
  unfold DomainWF; infer_instance

instance (r : Report) : Decidable (ReportWF r) := by
  unfold ReportWF; infer_instance

/-! ## Shared helper lemmas -/

theorem goToLowerByte_eq_self_iff (b : Nat) :
    goToLowerByte b = b ↔ ¬(65 ≤ b ∧ b ≤ 90) := by
  unfold goToLowerByte
  split_ifs with h
  · constructor
    · intro hb; omega
    · intro hb; exact absurd h hb
  · simp [h]

theorem mapLowerByte_eq_self_iff (s : GoStr) :
    s.map goToLowerByte = s ↔ ∀ b ∈ s, ¬(65 ≤ b ∧ b ≤ 90) := by
  induction s with
  | nil => simp
  | cons hd tl ih =>
    simp only [List.map_cons, List.cons.injEq, List.mem_cons]
    constructor
    · rintro ⟨h1, h2⟩ b hb
      rcases hb with rfl | hb
      · exact (goToLowerByte_eq_self_iff b).mp h1
      · exact (ih.mp h2) b hb
    · intro hall
      refine ⟨(goToLowerByte_eq_self_iff hd).mpr (hall hd (.inl rfl)), ih.mpr ?_⟩
      intro b hb; exact hall b (.inr hb)

theorem goToLower_ascii {s : GoStr} (hA : ∀ b ∈ s, b < 128) :
    goToLower s = s.map goToLowerByte := by
  unfold goToLower
  rw [if_pos]
  rw [List.all_eq_true]
  intro b hb
  simpa using hA b hb

theorem goToLower_eq_self_iff {s : GoStr} (hA : ∀ b ∈ s, b < 128) :
    goToLower s = s ↔ ∀ b ∈ s, ¬(65 ≤ b ∧ b ≤ 90) := by
  rw [goToLower_ascii hA]
  exact mapLowerByte_eq_self_iff s

/-! ## C6: `NewValue` validation order and soundness -/

/-- C6 counterexample: the invalid UTF-8 byte 0xC8 contains no '.', no
upper-case letter, is one byte long, and contains a code point of 128
or more, so the claim's ordering says `NewValue` returns the non-ASCII
error there; the program instead returns the lower-case error, because
the second check `strings.ToLower(s) != s` fires first: `ToLower`
replaces the invalid byte with U+FFFD (bytes [239, 191, 189]), changing
the string. -/
theorem C6_newValue_counterexample :
    dotByte ∉ ([200] : GoStr) ∧
    (∀ b ∈ ([200] : GoStr), ¬(65 ≤ b ∧ b ≤ 90)) ∧
    ([200] : GoStr).length ≤ 63 ∧
    (∃ b ∈ ([200] : GoStr), 128 ≤ b) ∧
    NewValue [200] = .error (.notLowerCase [200]) ∧
    NewValue [200] ≠ .error (.nonAscii [200]) := by
  refine ⟨by decide, by decide, by decide, ⟨200, by decide, by decide⟩,
    by decide, by decide⟩

/-- C6 amended: `NewValue(s)` rejects with a distinct error for each
condition, tested in this order: `s` contains '.'; `strings.ToLower(s)`
differs from `s` (for ASCII strings exactly when `s` contains an
upper-case letter — for non-ASCII strings also when Unicode
lower-casing or invalid-UTF-8 sanitization changes `s`, which then
draws the lower-case error rather than the non-ASCII error);
`len(s) > 63`; `s` contains a code point of 128 or more.  Precisely:
the dot error occurs exactly when `s` contains '.'; for every ASCII
string the lower-case error occurs exactly when `s` has no dot and an
upper-case letter, the length error exactly when `s` has no dot, no
upper-case letter and more than 63 bytes, and the non-ASCII error never
occurs; `NewValue` accepts exactly the strings satisfying all four
validation predicates; and every accepted string is returned verbatim
with all four predicates holding. -/
theorem C6_newValue_spec (s : GoStr) :
    (NewValue s = .error (.containsDot s) ↔ dotByte ∈ s) ∧
    ((∀ b ∈ s, b < 128) →
      (NewValue s = .error (.notLowerCase s) ↔
        dotByte ∉ s ∧ ∃ b ∈ s, 65 ≤ b ∧ b ≤ 90) ∧
      (NewValue s = .error (.tooLong s) ↔
        dotByte ∉ s ∧ (∀ b ∈ s, ¬(65 ≤ b ∧ b ≤ 90)) ∧ 63 < s.length) ∧
      NewValue s ≠ .error (.nonAscii s)) ∧
    ((∃ val, NewValue s = .ok val) ↔
      dotByte ∉ s ∧ (∀ b ∈ s, ¬(65 ≤ b ∧ b ≤ 90)) ∧ s.length ≤ 63 ∧
      ∀ b ∈ s, b < 128) ∧
    (∀ val, NewValue s = .ok val →
      val.v = s ∧ dotByte ∉ s ∧ (∀ b ∈ s, ¬(65 ≤ b ∧ b ≤ 90)) ∧
      s.length ≤ 63 ∧ ∀ b ∈ s, b < 128) := by
  unfold NewValue
  split_ifs with h1 h2 h3 h4
  · -- rejected for '.'
    refine ⟨by simp [h1], ?_, ?_, by simp⟩
    · intro hA
      refine ⟨?_, ?_, by simp⟩
      · constructor
        · intro hc; simp at hc
        · rintro ⟨hc, -⟩; exact absurd h1 hc
      · constructor
        · intro hc; simp at hc
        · rintro ⟨hc, -⟩; exact absurd h1 hc
    · constructor
      · rintro ⟨val, hval⟩; simp at hval
      · rintro ⟨hc, -⟩; exact absurd h1 hc
  · -- rejected because ToLower changes the string
    refine ⟨by simp [h1], ?_, ?_, by simp⟩
    · intro hA
      have hex : ∃ b ∈ s, 65 ≤ b ∧ b ≤ 90 := by
        by_contra hc
        push_neg at hc
        exact h2 ((goToLower_eq_self_iff hA).mpr (fun b hb => by
          have := hc b hb; omega))
      obtain ⟨b, hb, h65, h90⟩ := hex
      refine ⟨?_, ?_, by simp⟩
      · simp only [eq_self_iff_true, true_iff]
        exact ⟨h1, b, hb, h65, h90⟩
      · constructor
        · intro hc; simp at hc
        · rintro ⟨-, hall, -⟩; exact absurd ⟨h65, h90⟩ (hall b hb)
    · constructor
      · rintro ⟨val, hval⟩; simp at hval
      · rintro ⟨-, hup, -, hA⟩
        exact (h2 ((goToLower_eq_self_iff hA).mpr hup)).elim
  · -- rejected for length
    refine ⟨by simp [h1], ?_, ?_, by simp⟩
    · intro hA
      have h2' : ∀ b ∈ s, ¬(65 ≤ b ∧ b ≤ 90) :=
        (goToLower_eq_self_iff hA).mp (not_not.mp h2)
      refine ⟨?_, ?_, by simp⟩
      · constructor
        · intro hc; simp at hc
        · rintro ⟨-, b, hb, hu⟩; exact ((h2' b hb) hu).elim
      · simp only [eq_self_iff_true, true_iff]
        exact ⟨h1, h2', h3⟩
    · constructor
      · rintro ⟨val, hval⟩; simp at hval
      · rintro ⟨-, -, hle, -⟩; omega
  · -- rejected for a code point of 128 or more
    have hnb : ∃ b ∈ s, 128 ≤ b := by
      obtain ⟨b, hb, hd⟩ := List.any_eq_true.mp h4
      exact ⟨b, hb, by simpa using hd⟩
    refine ⟨by simp [h1], ?_, ?_, by simp⟩
    · intro hA
      obtain ⟨b, hb, h128⟩ := hnb
      have := hA b hb
      omega
    · constructor
      · rintro ⟨val, hval⟩; simp at hval
      · rintro ⟨-, -, -, hA⟩
        obtain ⟨b, hb, h128⟩ := hnb
        have := hA b hb
        omega
  · -- accepted
    have hA : ∀ b ∈ s, b < 128 := by
      intro b hb
      by_contra hc
      exact h4 (List.any_eq_true.mpr ⟨b, hb, by simp; omega⟩)
    have h2' : ∀ b ∈ s, ¬(65 ≤ b ∧ b ≤ 90) :=
      (goToLower_eq_self_iff hA).mp (not_not.mp h2)
    refine ⟨?_, ?_, ?_, ?_⟩
    · constructor
      · intro hc; simp at hc
      · intro hc; exact absurd hc h1
    · intro _
      refine ⟨?_, ?_, by simp⟩
      · constructor
        · intro hc; simp at hc
        · rintro ⟨-, b, hb, hu⟩; exact ((h2' b hb) hu).elim
      · constructor
        · intro hc; simp at hc
        · rintro ⟨-, -, hlen⟩; omega
    · constructor
      · intro _
        exact ⟨h1, h2', by omega, hA⟩
      · intro _
        exact ⟨⟨s⟩, rfl⟩
    · rintro val hval
      cases hval
      exact ⟨rfl, h1, h2', by omega, hA⟩

/-- C6 witness: the lower-case branch of the ASCII characterization at
"aB", and the acceptance branch at "ab". -/
theorem C6_newValue_spec_witness :
    (∀ b ∈ ([97, 66] : GoStr), b < 128) ∧
    NewValue [97, 66] = .error (.notLowerCase [97, 66]) ∧
    ((⟨[97, 98]⟩ : Value).v = [97, 98] ∧ dotByte ∉ ([97, 98] : GoStr) ∧
      (∀ b ∈ ([97, 98] : GoStr), ¬(65 ≤ b ∧ b ≤ 90)) ∧
      ([97, 98] : GoStr).length ≤ 63 ∧ ∀ b ∈ ([97, 98] : GoStr), b < 128) :=
  ⟨by decide,
    (((C6_newValue_spec [97, 66]).2.1 (by decide)).1).mpr (by decide),
    (C6_newValue_spec [97, 98]).2.2.2 ⟨[97, 98]⟩ (by decide)⟩

/-! ## C8: `cache.Add` behavior and the 1000-entry bound -/

theorem dateLt_ne {a b : Date} (h : dateLt a b = true) : a ≠ b := by
  intro he
  subst he
  simp only [dateLt, decide_eq_true_eq] at h
  omega

/-- C8: `cache.Add(key)` rejects strictly older dates with an error and
no state change; flushes the set and updates the date on strictly newer
dates before proceeding; reports a duplicate domain with `(false, nil)`;
reports a full set (1000 entries) with an error; otherwise inserts the
domain and returns `(true, nil)`; and the set never grows beyond 1000
entries. -/
theorem C8_cacheAdd_spec (c : Cache) (k : Key) :
    (dateLt k.Date c.date = true → cacheAdd c k = (c, false, some .oldDate)) ∧
    (k.Date = c.date → k.Domain ∈ c.cache → cacheAdd c k = (c, false, none)) ∧
    (k.Date = c.date → k.Domain ∉ c.cache → maxReports ≤ c.cache.length →
      cacheAdd c k = (c, false, some .cacheFull)) ∧
    (k.Date = c.date → k.Domain ∉ c.cache → c.cache.length < maxReports →
      cacheAdd c k = (⟨c.date, c.cache ++ [k.Domain]⟩, true, none)) ∧
    (k.Date ≠ c.date → dateLt k.Date c.date = false →
      cacheAdd c k = cacheAddBody ⟨k.Date, []⟩ k) ∧
    (c.cache.length ≤ maxReports → (cacheAdd c k).1.cache.length ≤ maxReports) := by
  refine ⟨?_, ?_, ?_, ?_, ?_, ?_⟩
  · intro hlt
    rw [cacheAdd, if_neg (fun he => dateLt_ne hlt he), if_pos hlt]
  · intro he hmem
    rw [cacheAdd, if_pos he, cacheAddBody, if_pos hmem]
  · intro he hmem hfull
    rw [cacheAdd, if_pos he, cacheAddBody, if_neg hmem, if_pos hfull]
  · intro he hmem hroom
    rw [cacheAdd, if_pos he, cacheAddBody, if_neg hmem, if_neg (by omega)]
  · intro hne hlt
    rw [cacheAdd, if_neg (fun he => hne he), if_neg (by simp [hlt])]
  · intro hle
    rw [cacheAdd]
    split_ifs with h1 h2
    · rw [cacheAddBody]
      split_ifs with hm hf
      · exact hle
      · exact hle
      · simpa using by omega
    · exact hle
    · rw [cacheAddBody]
      split_ifs with hm hf
      · simp [maxReports]
      · simp [maxReports]
      · simp [maxReports]

/-- C8 witness: a successful insertion into an empty cache for the
stored date. -/
theorem C8_cacheAdd_spec_witness :
    (⟨2020, 1, 1⟩ : Date) = (⟨⟨2020, 1, 1⟩, []⟩ : Cache).date ∧
    cacheAdd ⟨⟨2020, 1, 1⟩, []⟩ ⟨[97], [122, 122], ⟨2020, 1, 1⟩⟩ =
      (⟨⟨2020, 1, 1⟩, [[97]]⟩, true, none) :=
  ⟨rfl,
    (C8_cacheAdd_spec ⟨⟨2020, 1, 1⟩, []⟩ ⟨[97], [122, 122], ⟨2020, 1, 1⟩⟩).2.2.2.1
      rfl (by decide) (by decide)⟩

/-! ## C5: the burst suppressor's `Send` result -/

/-- C5 counterexample: when the random draw fails, `Send` returns that
error, not success — at the concrete initial state and a trivial
report. -/
theorem C5_send_counterexample :
    (burstSend ⟨0, ⟨⟨[], [], ⟨1, 1, 1⟩⟩, [], []⟩⟩ ⟨⟨[], [], ⟨1, 1, 1⟩⟩, [], []⟩
        (.error ())).2 = .error () := by
  rfl

/-- C5 amended: `burstReportSender.Send` returns nil for every report
and every internal state whenever the random draw succeeds; if the
draw from the cryptographic RNG fails, `Send` returns that error. -/
theorem C5_send_amended (st : BurstState) (r : Report) :
    (∀ i : Int, (burstSend st r (.ok i)).2 = .ok ()) ∧
    (∀ e : Unit, (burstSend st r (.error e)).2 = .error e) := by
  constructor
  · intro i
    rw [burstSend]
    split_ifs <;> rfl
  · intro e
    rfl

/-! ## C4: empty-bin reports and the filter's panic -/

/-- C4 counterexample: a report with an empty bin whose key has already
burst does not panic; `Filter` forwards it (threshold 1, key bursts on
the first report, the second report has no bin). -/
theorem C4_emptyBin_counterexample :
    Filter [⟨⟨[97], [122, 122], ⟨2020, 1, 1⟩⟩, [], [97]⟩,
            ⟨⟨[97], [122, 122], ⟨2020, 1, 1⟩⟩, [], []⟩] 1 =
      .ok [⟨⟨[97], [122, 122], ⟨2020, 1, 1⟩⟩, [], []⟩,
           ⟨⟨[97], [122, 122], ⟨2020, 1, 1⟩⟩, [], []⟩] := by
  rfl

/-- C4 amended: feeding a report with an empty bin to the filter causes
the fatal `panic("Report is missing bin")` whenever the report's key has
not already burst (its dam is absent or still active); if the key has
already burst, the report is forwarded immediately without a panic. -/
theorem C4_emptyBin_amended (p : Pending) (r : Report) (t : Int)
    (hbin : r.bin = []) :
    (p r.Key ≠ some none → filterStep p r t = .error ()) ∧
    (p r.Key = some none → filterStep p r t = .ok (p, [r])) := by
  constructor
  · intro hne
    rw [filterStep]
    match hp : p r.Key with
    | none =>
      simp only [hp]
      rw [damAdd]
      simp [hbin]
    | some none => exact absurd hp hne
    | some (some d) =>
      simp only [hp]
      rw [damAdd]
      simp [hbin]
  · intro hburst
    rw [filterStep]
    simp only [hburst]
    rw [damAdd]

/-- C4 witness: the panic at a fresh key with an empty bin. -/
theorem C4_emptyBin_amended_witness :
    (⟨⟨[], [], ⟨1, 1, 1⟩⟩, [], []⟩ : Report).bin = [] ∧
    ((fun _ => none : Pending) (⟨⟨[], [], ⟨1, 1, 1⟩⟩, [], []⟩ : Report).Key ≠
      some none) ∧
    filterStep (fun _ => none) ⟨⟨[], [], ⟨1, 1, 1⟩⟩, [], []⟩ 1 = .error () :=
  ⟨rfl, fun h => Option.noConfusion h,
    (C4_emptyBin_amended (fun _ => none) ⟨⟨[], [], ⟨1, 1, 1⟩⟩, [], []⟩ 1 rfl).1
      (fun h => Option.noConfusion h)⟩

/-! ## C7: the bin label has the configured fixed length -/

theorem base32encode_length : ∀ (n v : Nat), (base32encode v n).length = n
  | 0, _ => rfl
  | n + 1, v => by
    simp only [base32encode, List.length_append, List.length_cons,
      List.length_nil, base32encode_length n (v >>> 5)]

theorem base32sizeLoop_eq (v : Nat) :
    base32sizeLoop v = if v = 0 then 0 else base32sizeLoop (v >>> 5) + 1 := by
  rw [base32sizeLoop]
  simp

theorem shift5_eq_div (v : Nat) : v >>> 5 = v / 32 := by
  rw [Nat.shiftRight_eq_div_pow]

theorem base32sizeLoop_small (v : Nat) (h1 : 1 ≤ v) (h2 : v ≤ 31) :
    base32sizeLoop v = 1 := by
  have hz : v / 32 = 0 := by omega
  rw [base32sizeLoop_eq, if_neg (by omega), shift5_eq_div, hz,
    base32sizeLoop_eq]
  simp

theorem base32sizeLoop_mid (v : Nat) (h1 : 32 ≤ v) (h2 : v ≤ 1023) :
    base32sizeLoop v = 2 := by
  rw [base32sizeLoop_eq, if_neg (by omega), shift5_eq_div,
    base32sizeLoop_small (v / 32) (by omega) (by omega)]

/-- C7: for every configuration with at least one bin and every key,
the bin label has length `base32size(bins - 1)`; in particular length 1
for `bins` in [1, 32] and length 2 for `bins` in [33, 1024]. -/
theorem C7_bin_length (salt : List Nat) (bins : Nat) (k : Key)
    (hbins : 1 ≤ bins) :
    (hashBinner.bin ⟨salt, bins⟩ k).length = base32size (bins - 1) ∧
    (bins ≤ 32 → (hashBinner.bin ⟨salt, bins⟩ k).length = 1) ∧
    (33 ≤ bins → bins ≤ 1024 → (hashBinner.bin ⟨salt, bins⟩ k).length = 2) := by
  have hlen : (hashBinner.bin ⟨salt, bins⟩ k).length = base32size (bins - 1) := by
    rw [hashBinner.bin]
    exact base32encode_length _ _
  refine ⟨hlen, ?_, ?_⟩
  · intro h32
    rw [hlen, base32size]
    split_ifs with h0
    · rfl
    · exact base32sizeLoop_small _ (by omega) (by omega)
  · intro h33 h1024
    rw [hlen, base32size, if_neg (by omega)]
    exact base32sizeLoop_mid _ (by omega) (by omega)

/-- C7 witness: a two-bin binner with an all-zero salt yields one-byte
labels. -/
theorem C7_bin_length_witness :
    1 ≤ 2 ∧
    (hashBinner.bin ⟨List.replicate saltsize 0, 2⟩
      ⟨[97], [122, 122], ⟨2020, 1, 1⟩⟩).length = base32size (2 - 1) :=
  ⟨by decide,
    (C7_bin_length (List.replicate saltsize 0) 2
      ⟨[97], [122, 122], ⟨2020, 1, 1⟩⟩ (by decide)).1⟩

/-! ## C9: the bin assignment depends only on (salt, bins, key) -/

/-- C9: two hash binners with equal salt bytes and equal bin counts
assign every key the same bin: `hashBinner.bin` reads nothing but the
salt, the bin count and the key. -/
theorem C9_bin_deterministic (b1 b2 : hashBinner) (k : Key)
    (hsalt : b1.salt = b2.salt) (hbins : b1.bins = b2.bins) :
    b1.bin k = b2.bin k := by
  cases b1
  cases b2
  cases hsalt
  cases hbins
  rfl

/-- C9 witness: two binners built from the same sixteen salt bytes and
32 bins agree on a concrete key. -/
theorem C9_bin_deterministic_witness :
    (hashBinner.mk (List.replicate saltsize 7) 32).salt =
      (hashBinner.mk (List.replicate saltsize 7) 32).salt ∧
    hashBinner.bin ⟨List.replicate saltsize 7, 32⟩
        ⟨[100, 111, 109], [122, 122], ⟨2020, 2, 2⟩⟩ =
      hashBinner.bin ⟨List.replicate saltsize 7, 32⟩
        ⟨[100, 111, 109], [122, 122], ⟨2020, 2, 2⟩⟩ :=
  ⟨rfl,
    C9_bin_deterministic ⟨List.replicate saltsize 7, 32⟩
      ⟨List.replicate saltsize 7, 32⟩
      ⟨[100, 111, 109], [122, 122], ⟨2020, 2, 2⟩⟩ rfl rfl⟩

/-! ## Filter step lemmas shared by the filter claims -/

theorem damAdd_some (d : Dam) (r : Report) (t : Int) (hbin : r.bin ≠ []) :
    damAdd (some d) r t =
      if t ≤ ((insertBin r.bin d.bins).length : Int) then
        .ok (some ((d.observations ++ [r.Values]).map
              (fun v => ⟨r.Key, v, []⟩)),
             some ⟨insertBin r.bin d.bins, []⟩)
      else .ok (none, some ⟨insertBin r.bin d.bins,
             d.observations ++ [r.Values]⟩) := by
  rw [damAdd, if_neg hbin]

theorem filterStep_sentinel (p : Pending) (r : Report) (t : Int)
    (hp : p r.Key = some none) :
    filterStep p r t = .ok (p, [r]) := by
  rw [filterStep]
  simp only [hp]
  rw [damAdd]

theorem filterStep_active (p : Pending) (r : Report) (t : Int) (d : Dam)
    (hp : p r.Key = some (some d)) (hbin : r.bin ≠ []) :
    filterStep p r t =
      if t ≤ ((insertBin r.bin d.bins).length : Int) then
        .ok (fun k => if k = r.Key then some none else p k,
             (d.observations ++ [r.Values]).map (fun v => ⟨r.Key, v, []⟩))
      else
        .ok (fun k => if k = r.Key then
               some (some ⟨insertBin r.bin d.bins, d.observations ++ [r.Values]⟩)
             else p k, []) := by
  rw [filterStep]
  simp only [hp]
  rw [damAdd_some d r t hbin]
  split_ifs with hthr
  · rfl
  · rfl

theorem filterStep_fresh (p : Pending) (r : Report) (t : Int)
    (hp : p r.Key = none) (hbin : r.bin ≠ []) :
    filterStep p r t =
      if t ≤ (1 : Int) then
        .ok (fun k => if k = r.Key then some none else p k,
             [⟨r.Key, r.Values, []⟩])
      else
        .ok (fun k => if k = r.Key then some (some ⟨[r.bin], [r.Values]⟩)
             else p k, []) := by
  have hins : insertBin r.bin ([] : List GoStr) = [r.bin] := by
    simp [insertBin]
  rw [filterStep]
  simp only [hp]
  rw [damAdd_some ⟨[], []⟩ r t hbin]
  simp only [hins, List.length_cons, List.length_nil, List.nil_append,
    List.map_cons, List.map_nil, zero_add, Nat.cast_one]
  split_ifs with hthr
  · rfl
  · rfl

theorem insertBin_nodup {b : GoStr} {l : List GoStr} (h : l.Nodup) :
    (insertBin b l).Nodup := by
  unfold insertBin
  split_ifs with hm
  · exact h
  · simp [List.nodup_append, h, hm]

theorem insertBin_toFinset (b : GoStr) (l : List GoStr) :
    (insertBin b l).toFinset = insert b l.toFinset := by
  unfold insertBin
  split_ifs with hm
  · rw [Finset.insert_eq_self.mpr (List.mem_toFinset.mpr hm)]
  · ext x
    simp [or_comm]

theorem insertBin_length {b : GoStr} {l : List GoStr} (h : l.Nodup) :
    (insertBin b l).length = (insert b l.toFinset).card := by
  rw [← insertBin_toFinset, List.toFinset_card_of_nodup (insertBin_nodup h)]

theorem binFinset_cons (r : Report) (rest : List Report) (k : Key) :
    binFinset (r :: rest) k =
      if r.Key = k then insert r.bin (binFinset rest k)
      else binFinset rest k := by
  by_cases h : r.Key = k
  · simp [binFinset, List.filter_cons, h]
  · simp [binFinset, List.filter_cons, h]

theorem binFinset_cons_subset (r : Report) (rest : List Report) (k : Key) :
    binFinset rest k ⊆ binFinset (r :: rest) k := by
  rw [binFinset_cons]
  split_ifs with h
  · exact Finset.subset_insert _ _
  · exact Finset.Subset.refl _

theorem bin_mem_binFinset_cons (r : Report) (rest : List Report) :
    r.bin ∈ binFinset (r :: rest) r.Key := by
  rw [binFinset_cons, if_pos rfl]
  exact Finset.mem_insert_self _ _

/-! ## C10: thresholds of one or less release every report at once -/

theorem filterGo_low (t : Int) (ht : t ≤ 1) :
    ∀ (rs : List Report) (p : Pending), (∀ r ∈ rs, r.bin ≠ []) →
      (∀ k, p k = none ∨ p k = some none) →
      ∃ out, filterGo p rs t = .ok out ∧
        out.map (fun r => (r.Key, r.Values)) =
          rs.map (fun r => (r.Key, r.Values))
  | [], p, _, _ => ⟨[], rfl, rfl⟩
  | r :: rest, p, hbin, hp => by
    have hbr := hbin r (List.mem_cons_self r rest)
    have hbrest : ∀ x ∈ rest, x.bin ≠ [] :=
      fun x hx => hbin x (List.mem_cons_of_mem r hx)
    rcases hp r.Key with hk | hk
    · have hstep := filterStep_fresh p r t hk hbr
      rw [if_pos ht] at hstep
      have hp' : ∀ k, (fun k => if k = r.Key then some none else p k) k = none ∨
          (fun k => if k = r.Key then some none else p k) k = some none := by
        intro k
        by_cases hkk : k = r.Key
        · simp [hkk]
        · simpa [hkk] using hp k
      obtain ⟨out, hout, hmap⟩ := filterGo_low t ht rest _ hbrest hp'
      refine ⟨⟨r.Key, r.Values, []⟩ :: out, ?_, ?_⟩
      · rw [filterGo, hstep]
        dsimp only
        rw [hout]
        rfl
      · simp only [List.map_cons, hmap]
    · have hstep := filterStep_sentinel p r t hk
      obtain ⟨out, hout, hmap⟩ := filterGo_low t ht rest p hbrest hp
      refine ⟨r :: out, ?_, ?_⟩
      · rw [filterGo, hstep]
        dsimp only
        rw [hout]
        rfl
      · simp only [List.map_cons, hmap]

/-- C10: with any threshold at most one (zero and negative included),
`Filter` releases every report with a non-empty bin as soon as it
arrives: nothing stays buffered, and the output lists exactly the
input's keys and value sequences, in order. -/
theorem C10_low_threshold_releases_all (rs : List Report) (t : Int)
    (ht : t ≤ 1) (hbin : ∀ r ∈ rs, r.bin ≠ []) :
    ∃ out, Filter rs t = .ok out ∧
      out.map (fun r => (r.Key, r.Values)) =
        rs.map (fun r => (r.Key, r.Values)) :=
  filterGo_low t ht rs (fun _ => none) hbin (fun _ => Or.inl rfl)

/-- C10 witness: a one-report stream with threshold one. -/
theorem C10_low_threshold_releases_all_witness :
    (1 : Int) ≤ 1 ∧
    (∀ r ∈ [(⟨⟨[97], [122, 122], ⟨2020, 1, 1⟩⟩, [], [113]⟩ : Report)],
      r.bin ≠ []) ∧
    ∃ out,
      Filter [⟨⟨[97], [122, 122], ⟨2020, 1, 1⟩⟩, [], [113]⟩] 1 = .ok out ∧
      out.map (fun r => (r.Key, r.Values)) =
        [(⟨⟨[97], [122, 122], ⟨2020, 1, 1⟩⟩, [], [113]⟩ : Report)].map
          (fun r => (r.Key, r.Values)) :=
  ⟨le_refl 1, by decide,
    C10_low_threshold_releases_all _ 1 (le_refl 1) (by decide)⟩

/-! ## C2: below-threshold streams produce no output -/

theorem filterGo_safe (t : Int) :
    ∀ (rs : List Report) (p : Pending),
      (∀ r ∈ rs, r.bin ≠ []) →
      (∀ k, p k ≠ some none) →
      (∀ k d, p k = some (some d) → d.bins.Nodup ∧
        ((d.bins.toFinset ∪ binFinset rs k).card : Int) < t) →
      (∀ r ∈ rs, p r.Key = none → ((binFinset rs r.Key).card : Int) < t) →
      filterGo p rs t = .ok []
  | [], _, _, _, _, _ => rfl
  | r :: rest, p, hbin, hN, hA, hS => by
    have hbr := hbin r (List.mem_cons_self r rest)
    have hbrest : ∀ x ∈ rest, x.bin ≠ [] :=
      fun x hx => hbin x (List.mem_cons_of_mem r hx)
    rcases hk : p r.Key with _ | (_ | d)
    · -- no dam yet: a fresh one is created and cannot burst
      have hcard : ((binFinset (r :: rest) r.Key).card : Int) < t :=
        hS r (List.mem_cons_self r rest) hk
      have h1le : 1 ≤ (binFinset (r :: rest) r.Key).card :=
        Finset.card_pos.mpr ⟨r.bin, bin_mem_binFinset_cons r rest⟩
      have hnb : ¬t ≤ (1 : Int) := by
        have : ((1 : Nat) : Int) ≤ ((binFinset (r :: rest) r.Key).card : Int) :=
          Int.ofNat_le.mpr h1le
        omega
      rw [filterGo, filterStep_fresh p r t hk hbr, if_neg hnb]
      dsimp only
      rw [filterGo_safe t rest _ hbrest ?_ ?_ ?_]
      · rfl
      · intro k
        by_cases hkk : k = r.Key
        · simp [hkk]
        · simpa [hkk] using hN k
      · intro k dd hdd
        by_cases hkk : k = r.Key
        · subst hkk
          simp only [if_pos rfl, Option.some.injEq] at hdd
          cases hdd
          constructor
          · simp
          · have hsub : ([r.bin] : List GoStr).toFinset ∪ binFinset rest r.Key ⊆
                binFinset (r :: rest) r.Key := by
              rw [binFinset_cons, if_pos rfl]
              intro x hx
              rcases Finset.mem_union.mp hx with hx | hx
              · simp only [List.toFinset_cons, List.toFinset_nil,
                  insert_emptyc_eq, Finset.mem_singleton] at hx
                subst hx
                exact Finset.mem_insert_self _ _
              · exact Finset.mem_insert_of_mem hx
            have := Finset.card_le_card hsub
            have hle : (((([r.bin] : List GoStr).toFinset ∪
                binFinset rest r.Key).card : Nat) : Int) ≤
                ((binFinset (r :: rest) r.Key).card : Int) := Int.ofNat_le.mpr this
            dsimp only
            omega
        · simp only [if_neg hkk] at hdd
          obtain ⟨hnd, hc⟩ := hA k dd hdd
          refine ⟨hnd, ?_⟩
          have hsub : dd.bins.toFinset ∪ binFinset rest k ⊆
              dd.bins.toFinset ∪ binFinset (r :: rest) k :=
            Finset.union_subset_union_right (binFinset_cons_subset r rest k)
          have hle := Int.ofNat_le.mpr (Finset.card_le_card hsub)
          omega
      · intro x hx hpx
        by_cases hkk : x.Key = r.Key
        · rw [if_pos hkk] at hpx
          cases hpx
        · rw [if_neg hkk] at hpx
          have := hS x (List.mem_cons_of_mem r hx) hpx
          have hle := Int.ofNat_le.mpr
            (Finset.card_le_card (binFinset_cons_subset r rest x.Key))
          omega
    · exact absurd hk (hN r.Key)
    · -- active dam: the new bin stays below the threshold
      obtain ⟨hnd, hcard⟩ := hA r.Key d hk
      have hsub : insert r.bin d.bins.toFinset ⊆
          d.bins.toFinset ∪ binFinset (r :: rest) r.Key :=
        Finset.insert_subset_iff.mpr
          ⟨Finset.mem_union_right _ (bin_mem_binFinset_cons r rest),
           Finset.subset_union_left⟩
      have hnb : ¬t ≤ ((insertBin r.bin d.bins).length : Int) := by
        rw [insertBin_length hnd]
        have hle := Int.ofNat_le.mpr (Finset.card_le_card hsub)
        omega
      rw [filterGo, filterStep_active p r t d hk hbr, if_neg hnb]
      dsimp only
      rw [filterGo_safe t rest _ hbrest ?_ ?_ ?_]
      · rfl
      · intro k
        by_cases hkk : k = r.Key
        · simp [hkk]
        · simpa [hkk] using hN k
      · intro k dd hdd
        by_cases hkk : k = r.Key
        · subst hkk
          simp only [if_pos rfl, Option.some.injEq] at hdd
          cases hdd
          refine ⟨insertBin_nodup hnd, ?_⟩
          have hsub2 : (insertBin r.bin d.bins).toFinset ∪ binFinset rest r.Key ⊆
              d.bins.toFinset ∪ binFinset (r :: rest) r.Key := by
            rw [insertBin_toFinset]
            apply Finset.union_subset
            · exact hsub
            · exact (binFinset_cons_subset r rest r.Key).trans
                Finset.subset_union_right
          have hle := Int.ofNat_le.mpr (Finset.card_le_card hsub2)
          dsimp only
          omega
        · simp only [if_neg hkk] at hdd
          obtain ⟨hnd2, hc⟩ := hA k dd hdd
          refine ⟨hnd2, ?_⟩
          have hsub2 : dd.bins.toFinset ∪ binFinset rest k ⊆
              dd.bins.toFinset ∪ binFinset (r :: rest) k :=
            Finset.union_subset_union_right (binFinset_cons_subset r rest k)
          have hle := Int.ofNat_le.mpr (Finset.card_le_card hsub2)
          omega
      · intro x hx hpx
        by_cases hkk : x.Key = r.Key
        · rw [if_pos hkk] at hpx
          cases hpx
        · rw [if_neg hkk] at hpx
          have := hS x (List.mem_cons_of_mem r hx) hpx
          have hle := Int.ofNat_le.mpr
            (Finset.card_le_card (binFinset_cons_subset r rest x.Key))
          omega

/-- C2: for every finite input stream whose reports all carry a
non-empty bin and every threshold, if no key of the stream is
accompanied by `threshold` or more distinct bin strings, `Filter`
emits nothing. -/
theorem C2_filter_safety (rs : List Report) (t : Int)
    (hbin : ∀ r ∈ rs, r.bin ≠ [])
    (hfew : ∀ r ∈ rs, ((binFinset rs r.Key).card : Int) < t) :
    Filter rs t = .ok [] :=
  filterGo_safe t rs (fun _ => none) hbin
    (fun _ h => Option.noConfusion h)
    (fun _ _ h => Option.noConfusion h)
    (fun r hr _ => hfew r hr)

/-- C2 witness: two same-key reports in one bin never reach a threshold
of two, so the filter stays silent. -/
theorem C2_filter_safety_witness :
    (∀ r ∈ [(⟨⟨[97], [122, 122], ⟨2020, 1, 1⟩⟩, [], [113]⟩ : Report),
            (⟨⟨[97], [122, 122], ⟨2020, 1, 1⟩⟩, [], [113]⟩ : Report)],
      r.bin ≠ []) ∧
    Filter [⟨⟨[97], [122, 122], ⟨2020, 1, 1⟩⟩, [], [113]⟩,
            ⟨⟨[97], [122, 122], ⟨2020, 1, 1⟩⟩, [], [113]⟩] 2 = .ok [] :=
  ⟨by decide,
    C2_filter_safety _ 2 (by decide) (by decide)⟩

/-! ## C3: the bin carried by released reports -/

/-- C3 (code-bug evaluation): with threshold one, the first report for
a key is released from the dam with its bin stripped, but the second
report — forwarded through the nil (burst) sentinel — keeps its
original bin "b".  The claim (and the comment inside `dam.add`, which
calls the outputs "reports without a bin") requires every released
report to carry no bin. -/
theorem C3_released_bin_eval :
    Filter [⟨⟨[97], [122, 122], ⟨2020, 1, 1⟩⟩, [], [97]⟩,
            ⟨⟨[97], [122, 122], ⟨2020, 1, 1⟩⟩, [], [98]⟩] 1 =
      .ok [⟨⟨[97], [122, 122], ⟨2020, 1, 1⟩⟩, [], []⟩,
           ⟨⟨[97], [122, 122], ⟨2020, 1, 1⟩⟩, [], [98]⟩] ∧
    ¬∀ out, Filter [⟨⟨[97], [122, 122], ⟨2020, 1, 1⟩⟩, [], [97]⟩,
            ⟨⟨[97], [122, 122], ⟨2020, 1, 1⟩⟩, [], [98]⟩] 1 = .ok out →
        ∀ o ∈ out, o.bin = [] := by
  constructor
  · rfl
  · intro hall
    have := hall _ rfl (⟨⟨[97], [122, 122], ⟨2020, 1, 1⟩⟩, [], [98]⟩ : Report)
      (by simp)
    simp at this


/-! ## String lemmas for the round-trip claim -/

theorem goToLowerByte_dot : goToLowerByte dotByte = dotByte := by decide

theorem map_lowerByte_fixed {s : GoStr} (h : ∀ b ∈ s, goToLowerByte b = b) :
    s.map goToLowerByte = s := by
  induction s with
  | nil => rfl
  | cons hd tl ih =>
    rw [List.map_cons, h hd (List.mem_cons_self hd tl),
      ih (fun b hb => h b (List.mem_cons_of_mem hd hb))]

theorem goToLower_fixed {s : GoStr}
    (h : ∀ b ∈ s, b < 128 ∧ goToLowerByte b = b) : goToLower s = s := by
  rw [goToLower_ascii (fun b hb => (h b hb).1)]
  exact map_lowerByte_fixed (fun b hb => (h b hb).2)

theorem mem_of_trimSuffix {s suf : GoStr} {b : Nat}
    (h : b ∈ trimSuffix s suf) : b ∈ s := by
  unfold trimSuffix at h
  split_ifs at h
  · exact List.mem_of_mem_take h
  · exact h

theorem trimSuffix_append (a b : GoStr) : trimSuffix (a ++ b) b = a := by
  unfold trimSuffix
  rw [if_pos (List.isSuffixOf_iff_suffix.mpr (List.suffix_append a b))]
  simp

theorem trimSuffix_of_not {s suf : GoStr} (h : ¬suf.isSuffixOf s) :
    trimSuffix s suf = s := by
  unfold trimSuffix
  rw [if_neg (by simpa using h)]

theorem suffix_singleton_iff (x : Nat) (l : GoStr) :
    [x] <:+ l ↔ l.getLast? = some x := by
  constructor
  · rintro ⟨t, rfl⟩
    rw [List.getLast?_append]
    rfl
  · intro h
    rcases List.eq_nil_or_concat l with rfl | ⟨t, b, rfl⟩
    · simp at h
    · rw [List.concat_eq_append, List.getLast?_append] at h
      have hb : b = x := by
        have hred : (([b] : GoStr).getLast?).or t.getLast? = some b := rfl
        rw [hred] at h
        exact Option.some.inj h
      subst hb
      exact ⟨t, (List.concat_eq_append t b).symm⟩

theorem not_dot_suffix_append {a d : GoStr} (hd : d ≠ [])
    (hnd : ¬[dotByte] <:+ d) : ¬[dotByte] <:+ (a ++ d) := by
  intro hc
  rcases hl : d.getLast? with _ | y
  · exact hd (List.getLast?_eq_none_iff.mp hl)
  · rw [suffix_singleton_iff, List.getLast?_append, hl] at hc
    have hred : (Option.some y).or a.getLast? = some y := rfl
    rw [hred] at hc
    have hy := Option.some.inj hc
    subst hy
    exact hnd ((suffix_singleton_iff _ _).mpr hl)

theorem joinOn_nil (c : Nat) : joinOn c [] = [] := rfl

theorem joinOn_singleton (c : Nat) (x : GoStr) : joinOn c [x] = x := by
  unfold joinOn
  rw [List.intercalate, List.intersperse_singleton, List.flatten_cons]
  simp

theorem joinOn_cons_cons (c : Nat) (x y : GoStr) (ls : List GoStr) :
    joinOn c (x :: y :: ls) = x ++ c :: joinOn c (y :: ls) := by
  unfold joinOn
  rw [List.intercalate, List.intercalate, List.intersperse_cons_cons,
    List.flatten_cons, List.flatten_cons]
  simp

theorem joinOn_cons (c : Nat) (x : GoStr) (ls : List GoStr) (h : ls ≠ []) :
    joinOn c (x :: ls) = x ++ c :: joinOn c ls := by
  rcases List.exists_cons_of_ne_nil h with ⟨z, zs, rfl⟩
  exact joinOn_cons_cons c x z zs

theorem joinOn_append_last (c : Nat) :
    ∀ (ls : List GoStr), ls ≠ [] →
      ∀ (a : GoStr), joinOn c (ls ++ [a]) = joinOn c ls ++ c :: a
  | [], h, _ => absurd rfl h
  | [x], _, a => by
    rw [List.singleton_append, joinOn_cons_cons, joinOn_singleton,
      joinOn_singleton]
  | x :: y :: tl, _, a => by
    rw [List.cons_append,
      joinOn_cons c x ((y :: tl) ++ [a]) (by simp),
      joinOn_append_last c (y :: tl) (List.cons_ne_nil y tl) a,
      joinOn_cons c x (y :: tl) (List.cons_ne_nil y tl)]
    simp

theorem mem_joinOn {b c : Nat} :
    ∀ {ls : List GoStr}, b ∈ joinOn c ls → b = c ∨ ∃ l ∈ ls, b ∈ l
  | [], h => absurd h (by simp [joinOn_nil])
  | [x], h => by
    rw [joinOn_singleton] at h
    exact Or.inr ⟨x, List.mem_singleton_self x, h⟩
  | x :: y :: tl, h => by
    rw [joinOn_cons_cons] at h
    rcases List.mem_append.mp h with hx | hx
    · exact Or.inr ⟨x, List.mem_cons_self _ _, hx⟩
    · rcases List.mem_cons.mp hx with rfl | hx
      · exact Or.inl rfl
      · rcases mem_joinOn hx with rfl | ⟨l, hl, hbl⟩
        · exact Or.inl rfl
        · exact Or.inr ⟨l, List.mem_cons_of_mem x hl, hbl⟩

theorem splitOn_joinOn_front (c : Nat) :
    ∀ (front : List GoStr), (∀ l ∈ front, c ∉ l) →
      ∀ (d : GoStr), (joinOn c (front ++ [d])).splitOn c = front ++ d.splitOn c
  | [], _, d => by rw [List.nil_append, joinOn_singleton, List.nil_append]
  | f :: front, hf, d => by
    have ih := splitOn_joinOn_front c front
      (fun l hl => hf l (List.mem_cons_of_mem f hl)) d
    rw [List.cons_append, joinOn_cons c f (front ++ [d]) (by simp)]
    simp only [List.splitOn] at ih ⊢
    rw [List.splitOnP_first _ _
      (fun x hx => by
        simp only [beq_iff_eq]
        intro he
        exact hf f (List.mem_cons_self f front) (he ▸ hx))
      c (by simp), ih, List.cons_append]


/-! ## Label lemmas for the round-trip claim -/

theorem newValue_ok_props {s : GoStr} {v : Value} (h : NewValue s = .ok v) :
    v.v = s ∧ dotByte ∉ s ∧ goToLower s = s ∧ s.length ≤ 63 ∧
      ∀ b ∈ s, b < 128 := by
  unfold NewValue at h
  split_ifs at h with h1 h2 h3 h4
  cases h
  refine ⟨rfl, h1, not_not.mp h2, by omega, ?_⟩
  intro b hb
  by_contra hc
  exact h4 (List.any_eq_true.mpr ⟨b, hb, by simp; omega⟩)

theorem base32alphabet_bytes :
    ∀ b ∈ base32alphabet, b < 128 ∧ goToLowerByte b = b ∧ b ≠ dotByte := by
  decide

theorem mem_goDateFormat {d : Date} {b : Nat} (h : b ∈ goDateFormat d) :
    48 ≤ b ∧ b ≤ 57 := by
  simp only [goDateFormat, pad4, pad2, digitByte, List.mem_append,
    List.mem_cons, List.not_mem_nil, or_false] at h
  rcases h with ((rfl | rfl | rfl | rfl) | rfl | rfl) | rfl | rfl <;>
    (constructor <;> omega)

theorem digit_lower_fixed {b : Nat} (h48 : 48 ≤ b) (h57 : b ≤ 57) :
    goToLowerByte b = b := by
  unfold goToLowerByte
  rw [if_neg (by omega)]

theorem mapM_NewValue_map (values : List Value)
    (h : ∀ v ∈ values, ValueWF v) :
    (values.map (fun v => v.v)).mapM NewValue = .ok values := by
  induction values with
  | nil => rfl
  | cons v vs ih =>
    have hv : NewValue v.v = .ok v := h v (List.mem_cons_self v vs)
    have hvs := ih (fun x hx => h x (List.mem_cons_of_mem v hx))
    rw [List.map_cons, List.mapM_cons, hv, hvs]
    rfl

theorem goDateParse_format {d : Date} (h : DateWF d) :
    goDateParse (goDateFormat d) = some d := by
  obtain ⟨hy1, hy2, hm1, hm2, hd1, hd2⟩ := h
  have h10 : ∀ n : Nat, n % 10 < 10 := fun n => Nat.mod_lt n (by norm_num)
  have hshape : goDateFormat d =
      [digitByte (d.year / 1000), digitByte (d.year / 100),
       digitByte (d.year / 10), digitByte d.year,
       digitByte (d.month / 10), digitByte d.month,
       digitByte (d.day / 10), digitByte d.day] := by
    simp [goDateFormat, pad4, pad2]
  rw [hshape, goDateParse]
  have hdig : ∀ n : Nat, isDigit (digitByte n) = true := by
    intro n
    have := h10 n
    simp only [isDigit, digitByte, decide_eq_true_eq]
    omega
  rw [if_pos (by simp [hdig])]
  have hyr : (digitByte (d.year / 1000) - 48) * 1000 +
      (digitByte (d.year / 100) - 48) * 100 +
      (digitByte (d.year / 10) - 48) * 10 + (digitByte d.year - 48) =
      d.year := by
    simp only [digitByte]
    omega
  have hmo : (digitByte (d.month / 10) - 48) * 10 +
      (digitByte d.month - 48) = d.month := by
    simp only [digitByte]
    omega
  have hd31 : d.day ≤ 31 := by
    have hdm : daysIn d.year d.month ≤ 31 := by
      unfold daysIn
      split_ifs <;> omega
    omega
  have hdy : (digitByte (d.day / 10) - 48) * 10 + (digitByte d.day - 48) =
      d.day := by
    simp only [digitByte]
    omega
  simp only [hyr, hmo, hdy]
  rw [if_pos ⟨hm1, hm2, hd1, hd2⟩]


theorem trimSuffix_nil_right (s : GoStr) : trimSuffix s [] = s := by
  unfold trimSuffix
  rw [if_pos (List.isSuffixOf_iff_suffix.mpr List.nil_suffix)]
  simp

/-- For an all-lower-case, all-ASCII body with no trailing dot, parsing
`body ++ "." ++ suffix` with an all-ASCII configured suffix reduces to
the label phase on the body's dot-split. -/
theorem parseReport_reduces (rv : Nat) (core suffix : GoStr)
    (hlower : goToLower core = core)
    (hascii : ∀ b ∈ core, b < 128)
    (hnod : ¬[dotByte] <:+ core)
    (hsufascii : ∀ b ∈ suffix, b < 128) :
    Receiver.ParseReport ⟨suffix, rv⟩ (core ++ dotByte :: suffix) =
      parseLabels rv (core.splitOn dotByte) := by
  have hnodB : ¬[dotByte].isSuffixOf core := fun hc =>
    hnod (List.isSuffixOf_iff_suffix.mp hc)
  have hnmascii : ¬((core ++ dotByte :: suffix).any
      (fun b => decide (128 ≤ b)) = true) := by
    intro hc
    obtain ⟨b, hb, hble⟩ := List.any_eq_true.mp hc
    have h128 : 128 ≤ b := by simpa using hble
    rcases List.mem_append.mp hb with hbc | hbs
    · have := hascii b hbc
      omega
    · rcases List.mem_cons.mp hbs with rfl | hbs
      · exact absurd h128 (by decide)
      · have := hsufascii b hbs
        omega
  simp only [Receiver.ParseReport]
  rw [if_neg hnmascii]
  by_cases hse : suffix = []
  · subst hse
    have hname : core ++ dotByte :: ([] : GoStr) = core ++ [dotByte] := rfl
    have hnorm : normalizeForReport (core ++ [dotByte]) = core := by
      unfold normalizeForReport
      rw [trimSuffix_append core [dotByte], hlower]
    have hnsuf : normalizeForReport ([] : GoStr) = [] := rfl
    simp only [hname, hnorm, hnsuf]
    rw [if_neg (by
      simp only [not_not]
      exact List.isSuffixOf_iff_suffix.mpr List.nil_suffix),
      trimSuffix_nil_right, trimSuffix_of_not hnodB]
  · have key1 : trimSuffix (core ++ dotByte :: suffix) [dotByte] =
        core ++ dotByte :: trimSuffix suffix [dotByte] := by
      by_cases hds : [dotByte].isSuffixOf suffix
      · obtain ⟨t, rfl⟩ := List.isSuffixOf_iff_suffix.mp hds
        have h1 : core ++ dotByte :: (t ++ [dotByte]) =
            (core ++ dotByte :: t) ++ [dotByte] := by simp
        rw [h1, trimSuffix_append, trimSuffix_append]
      · have hnsfx : ¬[dotByte] <:+ suffix := fun hc =>
          hds (List.isSuffixOf_iff_suffix.mpr hc)
        have h1 : core ++ dotByte :: suffix =
            (core ++ [dotByte]) ++ suffix := by simp
        rw [trimSuffix_of_not, trimSuffix_of_not]
        · intro hc
          exact hds hc
        · intro hc
          rw [h1] at hc
          exact (not_dot_suffix_append hse hnsfx)
            (List.isSuffixOf_iff_suffix.mp hc)
    have hSascii : ∀ b ∈ trimSuffix suffix [dotByte], b < 128 :=
      fun b hb => hsufascii b (mem_of_trimSuffix hb)
    have hmapcore : List.map goToLowerByte core = core :=
      (goToLower_ascii hascii).symm.trans hlower
    have hallascii : ∀ b ∈ core ++ dotByte :: trimSuffix suffix [dotByte],
        b < 128 := by
      intro b hb
      rcases List.mem_append.mp hb with hb | hb
      · exact hascii b hb
      · rcases List.mem_cons.mp hb with rfl | hb
        · decide
        · exact hSascii b hb
    have hnormname : normalizeForReport (core ++ dotByte :: suffix) =
        core ++ dotByte :: goToLower (trimSuffix suffix [dotByte]) := by
      unfold normalizeForReport
      rw [key1, goToLower_ascii hallascii, List.map_append, List.map_cons,
        goToLowerByte_dot, hmapcore, ← goToLower_ascii hSascii]
    have hsfxof : (goToLower (trimSuffix suffix [dotByte])).isSuffixOf
        (core ++ dotByte :: goToLower (trimSuffix suffix [dotByte])) = true := by
      apply List.isSuffixOf_iff_suffix.mpr
      have : core ++ dotByte :: goToLower (trimSuffix suffix [dotByte]) =
          (core ++ [dotByte]) ++ goToLower (trimSuffix suffix [dotByte]) := by
        simp
      rw [this]
      exact List.suffix_append _ _
    simp only [hnormname]
    rw [if_neg (by
      simp only [not_not]
      exact hsfxof)]
    have htrim1 : trimSuffix
        (core ++ dotByte :: goToLower (trimSuffix suffix [dotByte]))
        (normalizeForReport suffix) = core ++ [dotByte] := by
      unfold normalizeForReport
      have : core ++ dotByte :: goToLower (trimSuffix suffix [dotByte]) =
          (core ++ [dotByte]) ++ goToLower (trimSuffix suffix [dotByte]) := by
        simp
      rw [this, trimSuffix_append]
    rw [htrim1, trimSuffix_append]


theorem parseLabels_complete (values : List Value) (bin country : GoStr)
    (d : Date) (domain : GoStr)
    (hvals : ∀ v ∈ values, ValueWF v) (hd : DateWF d) :
    parseLabels values.length
      ((values.map (fun v => v.v) ++ [bin, country, goDateFormat d]) ++
        domain.splitOn dotByte) =
      .ok ⟨⟨domain, country, d⟩, values, bin⟩ := by
  have hdlen : 0 < (domain.splitOn dotByte).length := by
    rw [List.length_pos]
    simpa [List.splitOn] using
      List.splitOnP_ne_nil (fun b => b == dotByte) domain
  have hvslen : (values.map (fun v => v.v)).length = values.length :=
    List.length_map _ _
  have hlen : ((values.map (fun v => v.v) ++ [bin, country, goDateFormat d]) ++
      domain.splitOn dotByte).length =
      values.length + 3 + (domain.splitOn dotByte).length := by
    simp
    omega
  have hassoc : (values.map (fun v => v.v) ++ [bin, country, goDateFormat d]) ++
      domain.splitOn dotByte =
      values.map (fun v => v.v) ++
        (bin :: country :: goDateFormat d :: domain.splitOn dotByte) := by
    simp
  rw [parseLabels, if_neg (by rw [hlen]; omega), hassoc]
  rw [show values.length = (values.map (fun v => v.v)).length from hvslen.symm,
    List.take_left, List.drop_left]
  rw [mapM_NewValue_map values hvals]
  have hjoin : joinOn dotByte (domain.splitOn dotByte) = domain :=
    List.intercalate_splitOn domain dotByte
  simp only [goDateParse_format hd, hjoin]

/-! ## C1: the name encoding round-trips through ParseReport -/

/-- C1 counterexample: the claim quantifies over every suffix, but a
suffix containing a byte of 128 or more makes `ParseReport` reject the
whole name as non-ASCII, so the round-trip fails for a well-formed
report with suffix `[200]`. -/
theorem C1_roundtrip_counterexample :
    ReportWF ⟨⟨[97], [122, 122], ⟨2020, 1, 1⟩⟩, [], [113]⟩ ∧
    Receiver.ParseReport ⟨[200], 0⟩
      (name ⟨⟨[97], [122, 122], ⟨2020, 1, 1⟩⟩, [], [113]⟩ [200]) =
      .error .nonAscii ∧
    Receiver.ParseReport ⟨[200], 0⟩
      (name ⟨⟨[97], [122, 122], ⟨2020, 1, 1⟩⟩, [], [113]⟩ [200]) ≠
      .ok ⟨⟨[97], [122, 122], ⟨2020, 1, 1⟩⟩, [], [113]⟩ := by
  refine ⟨by decide, by decide, by decide⟩

/-- C1 amended: for every report satisfying the data-model invariants
and every all-ASCII suffix (code points below 128), parsing the encoded
name with a receiver configured with that suffix and the report's value
count returns the report exactly: equal `Key`, `Values` and bin. -/
theorem C1_roundtrip (r : Report) (suffix : GoStr) (hwf : ReportWF r)
    (hsuf : ∀ b ∈ suffix, b < 128) :
    Receiver.ParseReport ⟨suffix, r.Values.length⟩ (name r suffix) =
      .ok r := by
  obtain ⟨⟨hdne, hdascii, hdnod⟩, ⟨hclen, hcrange⟩, hdate, hvals,
    hbne, hbrange⟩ := hwf
  have hfront_nodot : ∀ l ∈ r.Values.map (fun v => v.v) ++
      [r.bin, r.Key.Country, goDateFormat r.Key.Date], dotByte ∉ l := by
    intro l hl
    rcases List.mem_append.mp hl with hv | hfix
    · obtain ⟨v, hvmem, rfl⟩ := List.mem_map.mp hv
      exact (newValue_ok_props (hvals v hvmem)).2.1
    · simp only [List.mem_cons, List.not_mem_nil, or_false] at hfix
      rcases hfix with rfl | rfl | rfl
      · intro hc
        exact (base32alphabet_bytes dotByte (hbrange dotByte hc)).2.2 rfl
      · intro hc
        have := hcrange dotByte hc
        simp only [dotByte] at this
        omega
      · intro hc
        have := mem_goDateFormat hc
        simp only [dotByte] at this
        omega
  have hfront_bytes : ∀ l ∈ r.Values.map (fun v => v.v) ++
      [r.bin, r.Key.Country, goDateFormat r.Key.Date],
      ∀ b ∈ l, b < 128 ∧ goToLowerByte b = b := by
    intro l hl
    rcases List.mem_append.mp hl with hv | hfix
    · obtain ⟨v, hvmem, rfl⟩ := List.mem_map.mp hv
      intro b hb
      refine ⟨(newValue_ok_props (hvals v hvmem)).2.2.2.2 b hb, ?_⟩
      exact (goToLowerByte_eq_self_iff b).mpr
        ((goToLower_eq_self_iff
            (newValue_ok_props (hvals v hvmem)).2.2.2.2).mp
          (newValue_ok_props (hvals v hvmem)).2.2.1 b hb)
    · simp only [List.mem_cons, List.not_mem_nil, or_false] at hfix
      rcases hfix with rfl | rfl | rfl
      · intro b hb
        have := base32alphabet_bytes b (hbrange b hb)
        exact ⟨this.1, this.2.1⟩
      · intro b hb
        have := hcrange b hb
        refine ⟨by omega, (goToLowerByte_eq_self_iff b).mpr (by omega)⟩
      · intro b hb
        have := mem_goDateFormat hb
        exact ⟨by omega, digit_lower_fixed this.1 this.2⟩
  have hcorebytes : ∀ b ∈ joinOn dotByte
      ((r.Values.map (fun v => v.v) ++
        [r.bin, r.Key.Country, goDateFormat r.Key.Date]) ++ [r.Key.Domain]),
      b < 128 ∧ goToLowerByte b = b := by
    intro b hb
    rcases mem_joinOn hb with rfl | ⟨l, hl, hbl⟩
    · exact ⟨by decide, rfl⟩
    · rcases List.mem_append.mp hl with hl | hl
      · exact hfront_bytes l hl b hbl
      · rcases List.mem_singleton.mp hl with rfl
        exact hdascii b hbl
  have hname : name r suffix = joinOn dotByte
      ((r.Values.map (fun v => v.v) ++
        [r.bin, r.Key.Country, goDateFormat r.Key.Date]) ++ [r.Key.Domain]) ++
      dotByte :: suffix := by
    rw [name]
    have hre : r.Values.map (fun v => v.v) ++
        [r.bin, r.Key.Country, goDateFormat r.Key.Date, r.Key.Domain,
         suffix] =
        ((r.Values.map (fun v => v.v) ++
          [r.bin, r.Key.Country, goDateFormat r.Key.Date]) ++
          [r.Key.Domain]) ++ [suffix] := by
      simp
    rw [hre, joinOn_append_last dotByte _ (by simp) suffix]
  have hcorenod : ¬[dotByte] <:+ joinOn dotByte
      ((r.Values.map (fun v => v.v) ++
        [r.bin, r.Key.Country, goDateFormat r.Key.Date]) ++ [r.Key.Domain]) := by
    rw [joinOn_append_last dotByte _ (by simp) r.Key.Domain]
    have hre : joinOn dotByte (r.Values.map (fun v => v.v) ++
        [r.bin, r.Key.Country, goDateFormat r.Key.Date]) ++
        dotByte :: r.Key.Domain =
        (joinOn dotByte (r.Values.map (fun v => v.v) ++
          [r.bin, r.Key.Country, goDateFormat r.Key.Date]) ++ [dotByte]) ++
        r.Key.Domain := by
      simp
    rw [hre]
    exact not_dot_suffix_append hdne
      (fun hc => hdnod (List.isSuffixOf_iff_suffix.mpr hc))
  rw [hname, parseReport_reduces r.Values.length _ suffix
    (goToLower_fixed hcorebytes)
    (fun b hb => (hcorebytes b hb).1) hcorenod hsuf]
  rw [splitOn_joinOn_front dotByte _ hfront_nodot r.Key.Domain]
  exact parseLabels_complete r.Values r.bin r.Key.Country r.Key.Date
    r.Key.Domain hvals hdate

/-- C1 witness: the test report of the repository round-trips through
the suffix metrics.example.com. -/
theorem C1_roundtrip_witness :
    ReportWF ⟨⟨[119, 119, 119, 46, 100, 101, 115, 116], [122, 122],
      ⟨1413, 12, 11⟩⟩, [⟨[104, 115, 116, 115]⟩], [113]⟩ ∧
    Receiver.ParseReport
      ⟨[109, 46, 99, 111, 109], 1⟩
      (name ⟨⟨[119, 119, 119, 46, 100, 101, 115, 116], [122, 122],
        ⟨1413, 12, 11⟩⟩, [⟨[104, 115, 116, 115]⟩], [113]⟩
        [109, 46, 99, 111, 109]) =
      .ok ⟨⟨[119, 119, 119, 46, 100, 101, 115, 116], [122, 122],
        ⟨1413, 12, 11⟩⟩, [⟨[104, 115, 116, 115]⟩], [113]⟩ :=
  ⟨by decide,
    C1_roundtrip
      ⟨⟨[119, 119, 119, 46, 100, 101, 115, 116], [122, 122],
        ⟨1413, 12, 11⟩⟩, [⟨[104, 115, 116, 115]⟩], [113]⟩
      [109, 46, 99, 111, 109] (by decide) (by decide)⟩

end Choir
